import Mathlib

/-!
Shallow embedding of the Binance exchange adapter
(`src/exchanges/BinanceExchangeClient.ts`) and the position-size utilities.
JavaScript numbers are modelled as rationals (`ℚ`), millisecond clocks as
integers (`ℤ`), strings either as `List Char` (where character-level
replacement matters) or as Lean `String`.  Network interaction is modelled by
passing the response of the corresponding request as an explicit argument.
-/

namespace AiAutoTrading

/-! ### Constants from the adapter -/

/-- `MAX_CACHE_SIZE` field of `BinanceExchangeClient`. -/
def MAX_CACHE_SIZE : ℕ := 1000

/-- `CACHE_TTL` field: 24 hours in milliseconds. -/
def CACHE_TTL : ℤ := 24 * 60 * 60 * 1000

/-- The 2-second safety margin subtracted in `syncServerTime`. -/
def SAFETY_MARGIN_MS : ℤ := 2000

/-- The resync interval used by `ensureTimeSynced` (2 minutes). -/
def RESYNC_INTERVAL_MS : ℤ := 2 * 60 * 1000

/-! ### Symbol normalization (`normalizeContract`, `extractSymbol`)

JavaScript `String.replace` with a string pattern replaces only the first
occurrence; `includes`/`endsWith` are substring/suffix tests.  We model the
strings involved as `List Char`. -/

/-- Boolean prefix test on character lists. -/
def isPrefixOfC : List Char → List Char → Bool
  | [], _ => true
  | _ :: _, [] => false
  | a :: as, b :: bs => a == b && isPrefixOfC as bs

/-- Boolean substring-occurrence test: does `pat` occur in `s`? -/
def occursC (pat : List Char) : List Char → Bool
  | [] => isPrefixOfC pat []
  | c :: rest => isPrefixOfC pat (c :: rest) || occursC pat rest

/-- JavaScript `s.endsWith(pat)`. -/
def endsWithC (s pat : List Char) : Bool :=
  isPrefixOfC pat.reverse s.reverse

/-- JavaScript `s.replace(pat, '')`: remove the first occurrence of `pat`. -/
def replaceFirstC : List Char → List Char → List Char
  | [], _ => []
  | c :: rest, pat =>
    if isPrefixOfC pat (c :: rest) then (c :: rest).drop pat.length
    else c :: replaceFirstC rest pat

/-- The character list "USDT". -/
def USDTl : List Char := ['U', 'S', 'D', 'T']

/-- `normalizeContract` (BinanceExchangeClient.ts lines 87-97):
strip the first `'_'`, the first `'/'` and the first `":USDT"`, then append
`"USDT"` when the result neither ends with nor contains it. -/
def normalizeContract (symbol : List Char) : List Char :=
  let normalized :=
    replaceFirstC (replaceFirstC (replaceFirstC symbol ['_']) ['/']) (':' :: USDTl)
  if !endsWithC normalized USDTl && !occursC USDTl normalized then
    normalized ++ USDTl
  else
    normalized

/-- `extractSymbol` (lines 99-103): normalize, then remove the first "USDT". -/
def extractSymbol (contract : List Char) : List Char :=
  replaceFirstC (normalizeContract contract) USDTl

/-- The accepted-format constraints on a bare base-asset name (e.g. "BTC"):
no separator characters and no embedded "USDT". -/
def GoodBase (b : List Char) : Prop :=
  '_' ∉ b ∧ '/' ∉ b ∧ ':' ∉ b ∧ occursC USDTl b = false

/-! ### Precision normalization (`calculateQuantity`, `placeOrder`) -/

/-- The decimal-place count of lines 518 and 902:
`minQty >= 1 ? 0 : Math.abs(Math.floor(Math.log10(minQty)))`.
`Int.log 10` is the floor of the base-10 logarithm on positive rationals. -/
def decimalPlaces (minQty : ℚ) : ℕ :=
  if 1 ≤ minQty then 0 else (Int.log 10 minQty).natAbs

/-- `Math.floor(q * multiplier) / multiplier` with
`multiplier = 10 ^ decimalPlaces minQty` (lines 519-522 and 903-906). -/
def floorToStep (q minQty : ℚ) : ℚ :=
  let multiplier : ℚ := 10 ^ decimalPlaces minQty
  (⌊q * multiplier⌋ : ℚ) / multiplier

/-- `calculateQuantity` (lines 885-922), contract-info fetch succeeding with
minimum order size `minQty`: compute the raw quantity, floor it to the
step-implied precision, clamp below by `minQty`, floor again. -/
def calculateQuantity (amountUsdt price leverage minQty : ℚ) : ℚ :=
  let quantity := amountUsdt * leverage / price
  let roundedQuantity := floorToStep quantity minQty
  let finalQuantity := max roundedQuantity minQty
  floorToStep finalQuantity minQty

/-- The quantity–precision step of `placeOrder` (lines 510-522):
`quantity = Math.abs(params.size)` floored to the step-implied precision. -/
def placeOrderQuantity (size minQty : ℚ) : ℚ :=
  floorToStep |size| minQty

/-! ### Clock synchronization -/

/-- The offset computed by `syncServerTime` (lines 138-160) from local times
`t0` (before the request), `t1` (on response) and the reported `serverTime`. -/
def syncServerTimeOffset (t0 t1 serverTime : ℤ) : ℤ :=
  let rtt := t1 - t0
  let estimatedServerTime := serverTime + rtt / 2
  let localTime := t1
  let rawOffset := estimatedServerTime - localTime
  rawOffset - SAFETY_MARGIN_MS

/-- `getServerTime` (lines 184-186): `Date.now() + this.timeOffset`. -/
def getServerTime (localNow offset : ℤ) : ℤ :=
  localNow + offset

/-! ### The signed-request retry loop (`handleSignedRequest`, lines 291-379)

The transport is modelled as a map from attempt number to response; the local
clock and the stored time offset are threaded explicitly.  `advance n` is the
local time elapsed during attempt `n` (fetch plus back-off sleeps), and
`syncOffsetResult n` is the offset that a `syncServerTime` performed during
attempt `n` would store. -/

/-- Response of one fetch attempt: HTTP success with a payload, an HTTP error
with a Binance error code, or a transport-level failure. -/
inductive TResp where
  | ok (v : ℤ)
  | httpErr (code : ℤ)
  | netErr
deriving DecidableEq

/-- Overall outcome of the retry loop. -/
inductive ReqResult where
  | success (v : ℤ)
  | failure
deriving DecidableEq

/-- Local clock plus the adapter's stored `timeOffset`. -/
structure ClockState where
  localTime : ℤ
  timeOffset : ℤ
deriving DecidableEq

/-- Environment of a signed request: responses per attempt, elapsed local time
per attempt, and the offset a mid-loop resync would produce. -/
structure SignedEnv where
  transport : ℕ → TResp
  advance : ℕ → ℤ
  syncOffsetResult : ℕ → ℤ

/-- One pass of the `for` loop of `handleSignedRequest`, by remaining fuel.
Returns the outcome, the list of timestamps handed to the signer (one per
attempt, each computed fresh from the current clock state), and the number of
clock resynchronizations performed. -/
def signedLoop (env : SignedEnv) (retries : ℕ) :
    ℕ → ℕ → ClockState → ReqResult × List ℤ × ℕ
  | 0, _, _ => (ReqResult.failure, [], 0)
  | fuel + 1, attempt, st =>
    let timestamp := getServerTime st.localTime st.timeOffset
    match env.transport attempt with
    | TResp.ok v => (ReqResult.success v, [timestamp], 0)
    | TResp.httpErr code =>
      if code = -1021 ∧ attempt < retries then
        let st' : ClockState :=
          ⟨st.localTime + env.advance attempt, env.syncOffsetResult attempt⟩
        let r := signedLoop env retries fuel (attempt + 1) st'
        (r.1, timestamp :: r.2.1, r.2.2 + 1)
      else if attempt = retries then (ReqResult.failure, [timestamp], 0)
      else
        let st' : ClockState :=
          ⟨st.localTime + env.advance attempt, st.timeOffset⟩
        let r := signedLoop env retries fuel (attempt + 1) st'
        (r.1, timestamp :: r.2.1, r.2.2)
    | TResp.netErr =>
      if attempt = retries then (ReqResult.failure, [timestamp], 0)
      else
        let st' : ClockState :=
          ⟨st.localTime + env.advance attempt, st.timeOffset⟩
        let r := signedLoop env retries fuel (attempt + 1) st'
        (r.1, timestamp :: r.2.1, r.2.2)

/-- `handleSignedRequest`: run the loop from attempt 1. -/
def handleSignedRequest (env : SignedEnv) (retries : ℕ) (st : ClockState) :
    ReqResult × List ℤ × ℕ :=
  signedLoop env retries retries 1 st

/-! ### Order cache (`orderCache`, `cleanupCache`) and `getOrder`

The JavaScript `Map` is modelled as an association list in insertion order,
which is also the iteration order of `Map.entries()`. -/

/-- The uniform order shape returned to the controller (`OrderResponse`). -/
structure OrderResponseM where
  id : ℕ
  contract : String
  size : ℚ
  price : ℚ
  status : String
  create_time : ℤ
  fill_price : ℚ
  left : ℚ
deriving DecidableEq

/-- One `orderCache` value: `{contract, orderInfo, timestamp}`. -/
structure CacheEntryM where
  contract : String
  orderInfo : OrderResponseM
  timestamp : ℤ
deriving DecidableEq

/-- The `orderCache` map, keyed by order id, in insertion order. -/
abbrev CacheM := List (ℕ × CacheEntryM)

/-- JavaScript `Map.set`: update in place when the key exists, else append. -/
def mapSet (m : CacheM) (k : ℕ) (v : CacheEntryM) : CacheM :=
  if m.any (fun p => p.1 == k) then
    m.map (fun p => if p.1 == k then (k, v) else p)
  else
    m ++ [(k, v)]

/-- `cleanupCache` (lines 108-133) with explicit size/TTL parameters:
drop entries older than `ttl`, then, when still above `maxSize`, sort by
timestamp and delete the oldest entries down to `maxSize`. -/
def cleanupCacheWith (maxSize : ℕ) (ttl nowT : ℤ) (m : CacheM) : CacheM :=
  let afterTTL := m.filter (fun p => !(nowT - p.2.timestamp > ttl : Bool))
  if afterTTL.length > maxSize then
    let sorted := afterTTL.mergeSort (fun a b => a.2.timestamp ≤ b.2.timestamp)
    let toDelete := sorted.take (afterTTL.length - maxSize)
    afterTTL.filter (fun p => !toDelete.any (fun q => q.1 == p.1))
  else
    afterTTL

/-- `cleanupCache` with the adapter's constants. -/
def cleanupCache (nowT : ℤ) (m : CacheM) : CacheM :=
  cleanupCacheWith MAX_CACHE_SIZE CACHE_TTL nowT m

/-- Result of an awaited API call: payload or thrown error. -/
inductive ApiResult (α : Type) where
  | ok (v : α)
  | err
deriving DecidableEq

/-- BUY/SELL side of a Binance order payload. -/
inductive BinSide where
  | buy
  | sell
deriving DecidableEq

/-- The Binance `/fapi/v1/order` GET response fields used by `getOrder`. -/
structure BinOrderResp where
  orderId : ℕ
  side : BinSide
  origQty : ℚ
  executedQty : ℚ
  price : ℚ
  avgPrice : ℚ
  status : String
  time : ℤ
deriving DecidableEq

/-- The status mapping of `getOrder` (lines 599-602). -/
def mapOrderStatus (s : String) : String :=
  if s = "FILLED" then "finished"
  else if s = "NEW" then "open"
  else if s = "CANCELED" then "cancelled"
  else s.toLower

/-- `getOrder` (lines 580-646).  The network is abstracted: `query` is the
response of the direct order query issued when a cache entry exists (the
request itself is built from `normalizeContract` of the cached contract), and
`openOrders` is the successful result of `getOpenOrders()`.  Returns the
response handed to the caller together with the updated cache. -/
def getOrderModel (cache : CacheM) (orderId : ℕ) (query : ApiResult BinOrderResp)
    (openOrders : List OrderResponseM) (nowT : ℤ) : OrderResponseM × CacheM :=
  match cache.find? (fun p => p.1 == orderId) with
  | some pr =>
    let cached := pr.2
    match query with
    | ApiResult.ok response =>
      let orderResponse : OrderResponseM :=
        ⟨response.orderId, cached.contract,
          (match response.side with | BinSide.buy => 1 | BinSide.sell => -1) *
            response.origQty,
          response.price, mapOrderStatus response.status, response.time,
          response.avgPrice, response.origQty - response.executedQty⟩
      (orderResponse, mapSet cache orderId ⟨cached.contract, orderResponse, nowT⟩)
    | ApiResult.err => (cached.orderInfo, cache)
  | none =>
    match openOrders.find? (fun o => o.id == orderId) with
    | some order => (order, cache)
    | none =>
      (⟨orderId, "UNKNOWN", 0, 0, "finished", nowT, 0, 0⟩, cache)

/-- A concrete cache entry used to instantiate the sweep theorem. -/
def c3CacheEntry (i : ℕ) : ℕ × CacheEntryM :=
  (i, ⟨"BTCUSDT", ⟨i, "BTCUSDT", 1, 0, "open", 0, 0, 0⟩, (i : ℤ)⟩)

/-- A cache of `MAX_CACHE_SIZE + 5` fresh entries with increasing timestamps. -/
def c3Cache : CacheM :=
  (List.range (MAX_CACHE_SIZE + 5)).map c3CacheEntry

/-! ### `ensureTimeSynced` under concurrency (lines 165-179)

JavaScript is single-threaded: control can change hands only at `await`
points.  Each concurrent `ensureTimeSynced()` call is a task stepping through
an explicit program counter; the null-check of `syncPromise`, the staleness
check and the initiation of a fresh `syncServerTime` network call happen
synchronously, hence in one atomic step. -/

/-- Program counter of one `ensureTimeSynced` task. -/
inductive TPC where
  | entry
  | awaitShared
  | awaitOwn
  | done
deriving DecidableEq

/-- Shared adapter state for the concurrency model: whether `syncPromise` is
non-null, whether that promise has resolved, `lastSyncTime`, the current local
time, and the number of time-sync network round trips started. -/
structure SyncSt where
  syncPromiseActive : Bool
  sharedResolved : Bool
  lastSyncTime : ℤ
  nowT : ℤ
  networkCalls : ℕ
deriving DecidableEq

/-- Whole-machine state: shared state plus each task's program counter. -/
structure MachineSt where
  sys : SyncSt
  pcs : List TPC
deriving DecidableEq

/-- One step of a task at the given program counter. -/
def taskStep (s : SyncSt) (pc : TPC) : SyncSt × TPC :=
  match pc with
  | TPC.entry =>
    if s.syncPromiseActive then (s, TPC.awaitShared)
    else if s.nowT - s.lastSyncTime > RESYNC_INTERVAL_MS then
      ({ s with networkCalls := s.networkCalls + 1 }, TPC.awaitOwn)
    else (s, TPC.done)
  | TPC.awaitShared =>
    if s.sharedResolved then ({ s with syncPromiseActive := false }, TPC.done)
    else (s, TPC.awaitShared)
  | TPC.awaitOwn =>
    ({ s with lastSyncTime := s.nowT }, TPC.done)
  | TPC.done => (s, TPC.done)

/-- Scheduler events: run task `i`, or resolve the shared in-flight sync. -/
inductive SchedEv where
  | task (i : ℕ)
  | resolveShared
deriving DecidableEq

/-- One scheduler step. -/
def stepM (m : MachineSt) (e : SchedEv) : MachineSt :=
  match e with
  | SchedEv.task i =>
    match m.pcs.get? i with
    | some pc =>
      let r := taskStep m.sys pc
      ⟨r.1, m.pcs.set i r.2⟩
    | none => m
  | SchedEv.resolveShared => ⟨{ m.sys with sharedResolved := true }, m.pcs⟩

/-- Run a schedule. -/
def runSched (m : MachineSt) (evs : List SchedEv) : MachineSt :=
  evs.foldl stepM m

/-! ### `parsePositionSize` / `isValidPosition` (utils) -/

/-- A JavaScript number as observable through `parseFloat`: a finite value
(idealized as an exact rational, with no IEEE rounding or overflow) or a
signed infinity.  `NaN` is represented by `none` at the `parseFloatM` level
and by the dedicated `JsVal.nan` input constructor. -/
inductive JsNum where
  | finite (q : ℚ)
  | inf (positive : Bool)
deriving DecidableEq

/-- The JavaScript `StrWhiteSpace` characters skipped by `parseFloat`:
ASCII whitespace (space, tab, LF, VT, FF, CR), the line separators
U+2028/U+2029, and the Unicode space separators (NBSP, Ogham space mark,
U+2000–U+200A, narrow NBSP, medium mathematical space, ideographic space)
plus the BOM U+FEFF. -/
def isJsSpace (c : Char) : Bool :=
  c == ' ' || c == '\t' || c == '\n' || c == '\r' || c == '\x0b' || c == '\x0c' ||
  c == '\u00A0' || c == '\u1680' || ('\u2000' <= c && c <= '\u200A') ||
  c == '\u2028' || c == '\u2029' || c == '\u202F' || c == '\u205F' ||
  c == '\u3000' || c == '\uFEFF'

/-- Greedily take decimal digits from the front. -/
def takeDigits : List Char → List ℕ × List Char
  | [] => ([], [])
  | c :: rest =>
    if c.isDigit then
      let r := takeDigits rest
      ((c.toNat - 48) :: r.1, r.2)
    else ([], c :: rest)

/-- Digit list to natural number, most significant first. -/
def digitsToNat (ds : List ℕ) : ℕ :=
  ds.foldl (fun a d => 10 * a + d) 0

/-- Model of JavaScript `Number.parseFloat`: skip leading whitespace, take the
longest prefix matching `StrDecimalLiteral` — an optional sign followed by
either the literal word "Infinity" or by decimal digits with an optional
decimal point and an optional exponent part `e|E [+|-] digits` (an `e` not
followed by digits is not part of the number, as in JS, where
`parseFloat("1e") = 1`).  `none` models a `NaN` result (no valid prefix).
Arithmetic is idealized over `ℚ`: exact values, no IEEE rounding/overflow. -/
def parseFloatM (s : List Char) : Option JsNum :=
  let s1 := s.dropWhile isJsSpace
  let signAndRest : Bool × List Char :=
    match s1 with
    | c :: r => if c == '-' then (false, r) else if c == '+' then (true, r) else (true, c :: r)
    | [] => (true, [])
  let signQ : ℚ := if signAndRest.1 then 1 else -1
  if isPrefixOfC ['I', 'n', 'f', 'i', 'n', 'i', 't', 'y'] signAndRest.2 then
    some (JsNum.inf signAndRest.1)
  else
    let intPart := takeDigits signAndRest.2
    let fracPart : List ℕ × List Char :=
      match intPart.2 with
      | c :: r => if c == '.' then takeDigits r else ([], c :: r)
      | [] => ([], [])
    if intPart.1.isEmpty ∧ fracPart.1.isEmpty then none
    else
      let mantissa : ℚ :=
        (digitsToNat intPart.1 : ℚ) + (digitsToNat fracPart.1 : ℚ) / 10 ^ fracPart.1.length
      let expVal : ℤ :=
        match fracPart.2 with
        | c :: r =>
          if c == 'e' || c == 'E' then
            let esignAndRest : Bool × List Char :=
              match r with
              | d :: rr => if d == '-' then (false, rr) else if d == '+' then (true, rr) else (true, d :: rr)
              | [] => (true, [])
            let eds := takeDigits esignAndRest.2
            if eds.1.isEmpty then 0
            else (if esignAndRest.1 then 1 else -1) * (digitsToNat eds.1 : ℤ)
          else 0
        | [] => 0
      some (JsNum.finite (signQ * mantissa * 10 ^ expVal))

/-- The JavaScript values a `size` field can hold: `number` covers finite
values (`num`), `NaN` (`nan`) and the signed infinities (`infinity`). -/
inductive JsVal where
  | undefined
  | nullV
  | num (q : ℚ)
  | nan
  | infinity (positive : Bool)
  | str (s : List Char)

/-- `parsePositionSize` (utils, lines 84-91): `undefined`, `null` and the empty
string give `0`; otherwise `parseFloat(sizeValue.toString())`, with `NaN`
mapped to `0`.  For a number, `toString` followed by `parseFloat` is the
identity (finite values print and re-parse exactly; `±Infinity` prints as
`"±Infinity"`, which `parseFloat` maps back to `±Infinity`; `NaN` prints as
`"NaN"`, which parses to `NaN` and is mapped to `0` by the `isNaN` guard). -/
def parsePositionSize : JsVal → JsNum
  | JsVal.undefined => JsNum.finite 0
  | JsVal.nullV => JsNum.finite 0
  | JsVal.num q => JsNum.finite q
  | JsVal.nan => JsNum.finite 0
  | JsVal.infinity b => JsNum.inf b
  | JsVal.str s =>
    if s = [] then JsNum.finite 0
    else
      match parseFloatM s with
      | some v => v
      | none => JsNum.finite 0

/-- `isValidPosition` (utils, lines 98-100): `parsePositionSize(x) !== 0`. -/
def isValidPosition (v : JsVal) : Bool :=
  decide (parsePositionSize v ≠ JsNum.finite 0)

/-! ## Helper lemmas -/

theorem multiplier_pos (s : ℚ) : (0 : ℚ) < 10 ^ decimalPlaces s := by
  positivity

theorem floorToStep_le (x s : ℚ) : floorToStep x s ≤ x := by
  simp only [floorToStep]
  rw [div_le_iff₀ (multiplier_pos s)]
  exact Int.floor_le _

theorem floorToStep_nonneg (x s : ℚ) (hx : 0 ≤ x) : 0 ≤ floorToStep x s := by
  simp only [floorToStep]
  apply div_nonneg _ (le_of_lt (multiplier_pos s))
  exact_mod_cast Int.floor_nonneg.mpr (by positivity)

theorem floorToStep_mono (x y s : ℚ) (h : x ≤ y) :
    floorToStep x s ≤ floorToStep y s := by
  simp only [floorToStep]
  rw [div_le_div_iff_of_pos_right (multiplier_pos s)]
  exact_mod_cast Int.floor_mono (mul_le_mul_of_nonneg_right h (le_of_lt (multiplier_pos s)))

/-! ## Claims -/

/-- C1 counterexample: the floored quantity is not always an exact multiple of
the step (`floorToStep 3 2 = 3` is not a multiple of `2`), and
`calculateQuantity` does not always end at or above the contract minimum
(for raw quantity `1/2` and minimum step `3/2` it returns `1 < 3/2`, because
the final re-flooring truncates the clamped minimum). -/
theorem precision_floor_counterexample :
    (¬ ∃ k : ℤ, floorToStep 3 2 = (k : ℚ) * 2) ∧
    calculateQuantity (1/2) 1 1 (3/2) < 3/2 := by
  constructor
  · rintro ⟨k, hk⟩
    have h3 : floorToStep 3 2 = 3 := by norm_num [floorToStep, decimalPlaces]
    rw [h3] at hk
    have hk' : (3 : ℤ) = k * 2 := by exact_mod_cast hk
    omega
  · norm_num [calculateQuantity, floorToStep, decimalPlaces]

/-- C1 (amended): with `d = decimalPlaces s` (`0` when `s ≥ 1`, else
`-⌊log₁₀ s⌋`), flooring to `d` decimals never increases the value, keeps it
nonnegative for nonnegative input, and yields an exact integer multiple of
`10^(-d)` (not of `s` itself); `calculateQuantity` and the `placeOrder`
quantity step use this flooring, and `calculateQuantity` clamps the result
below by `s` floored to `d` decimals. -/
theorem precision_floor_amended (q s : ℚ) (hq : 0 < q) (hs : 0 < s) :
    (1 ≤ s → decimalPlaces s = 0) ∧
    (s < 1 → (decimalPlaces s : ℤ) = -Int.log 10 s) ∧
    floorToStep q s ≤ q ∧
    0 ≤ floorToStep q s ∧
    (∃ k : ℤ, floorToStep q s = (k : ℚ) / 10 ^ decimalPlaces s) ∧
    (∀ size : ℚ, placeOrderQuantity size s ≤ |size| ∧
      ∃ k : ℤ, placeOrderQuantity size s = (k : ℚ) / 10 ^ decimalPlaces s) ∧
    (∀ amountUsdt price leverage : ℚ,
      floorToStep s s ≤ calculateQuantity amountUsdt price leverage s ∧
      ∃ k : ℤ, calculateQuantity amountUsdt price leverage s =
        (k : ℚ) / 10 ^ decimalPlaces s) := by
  refine ⟨?_, ?_, floorToStep_le q s, floorToStep_nonneg q s (le_of_lt hq), ?_, ?_, ?_⟩
  · intro h1
    simp [decimalPlaces, h1]
  · intro h1
    have hlog : Int.log 10 s ≤ 0 := by
      rw [Int.log_of_right_le_one 10 (le_of_lt h1)]
      simp
    rw [decimalPlaces, if_neg (not_le.mpr h1)]
    exact Int.ofNat_natAbs_of_nonpos hlog
  · exact ⟨⌊q * 10 ^ decimalPlaces s⌋, rfl⟩
  · intro size
    exact ⟨floorToStep_le _ s, ⟨⌊|size| * 10 ^ decimalPlaces s⌋, rfl⟩⟩
  · intro amountUsdt price leverage
    constructor
    · exact floorToStep_mono _ _ _ (le_max_right _ s)
    · exact ⟨⌊max (floorToStep (amountUsdt * leverage / price) s) s *
        10 ^ decimalPlaces s⌋, rfl⟩

/-- C1 witness: the amended precision statement at `q = 3`, `s = 2`, and the
clamp at `amountUsdt = 6`, `price = 1`, `leverage = 1`. -/
theorem precision_floor_amended_witness :
    floorToStep 3 2 ≤ 3 ∧ 0 ≤ floorToStep 3 2 ∧
    (∃ k : ℤ, floorToStep 3 2 = (k : ℚ) / 10 ^ decimalPlaces 2) ∧
    floorToStep 2 2 ≤ calculateQuantity 6 1 1 2 := by
  have h := precision_floor_amended 3 2 (by norm_num) (by norm_num)
  exact ⟨h.2.2.1, h.2.2.2.1, h.2.2.2.2.1, (h.2.2.2.2.2.2 6 1 1).1⟩

/-- C5: after a synchronization that observed `t0`, `t1` and `serverTime = S`,
the stored offset is `(S + rtt/2 - t1) - SAFETY_MARGIN_MS` where
`rtt = t1 - t0`, and every later `getServerTime` call returns the local time
plus that offset. -/
theorem clock_offset_formula (t0 t1 S rtt : ℤ) (h01 : t0 ≤ t1)
    (hrtt : rtt = t1 - t0) :
    syncServerTimeOffset t0 t1 S = (S + rtt / 2 - t1) - SAFETY_MARGIN_MS ∧
    ∀ localNow : ℤ, getServerTime localNow (syncServerTimeOffset t0 t1 S) =
      localNow + ((S + rtt / 2 - t1) - SAFETY_MARGIN_MS) := by
  subst hrtt
  exact ⟨rfl, fun _ => rfl⟩

/-- C5 witness, at `t0 = 1000`, `t1 = 1010`, `S = 5000`. -/
theorem clock_offset_formula_witness :
    syncServerTimeOffset 1000 1010 5000 =
      (5000 + (1010 - 1000) / 2 - 1010) - SAFETY_MARGIN_MS ∧
    ∀ localNow : ℤ, getServerTime localNow (syncServerTimeOffset 1000 1010 5000) =
      localNow + ((5000 + (1010 - 1000) / 2 - 1010) - SAFETY_MARGIN_MS) :=
  clock_offset_formula 1000 1010 5000 (1010 - 1000) (by decide) rfl

/-- C7: when the order is in neither the cache nor the open-orders list (and
hence no direct query is even attempted), `getOrder` returns a best-effort
response with status "finished" for the requested id instead of raising. -/
theorem getOrder_degraded_mode (cache : CacheM) (orderId : ℕ)
    (query : ApiResult BinOrderResp) (openOrders : List OrderResponseM)
    (nowT : ℤ)
    (hc : cache.find? (fun p => p.1 == orderId) = none)
    (ho : openOrders.find? (fun o => o.id == orderId) = none) :
    (getOrderModel cache orderId query openOrders nowT).1.status = "finished" ∧
    (getOrderModel cache orderId query openOrders nowT).1.id = orderId := by
  simp [getOrderModel, hc, ho]

/-- C7 witness: empty cache and empty open-orders list, order id 7. -/
theorem getOrder_degraded_mode_witness :
    (getOrderModel [] 7 ApiResult.err [] 0).1.status = "finished" ∧
    (getOrderModel [] 7 ApiResult.err [] 0).1.id = 7 :=
  getOrder_degraded_mode [] 7 ApiResult.err [] 0 rfl rfl

/-- C10: `parsePositionSize` is total and never NaN: `undefined`, `null`, the
empty string, a NaN number and unparseable strings give `0`; finite numbers
and parseable numeric strings give the parsed value (the parsed finite value
when the literal is finite; signed infinity for `"±Infinity"` literals, which
the code passes through); and `isValidPosition` holds exactly when the parsed
size is nonzero. -/
theorem parsePositionSize_total_spec :
    parsePositionSize JsVal.undefined = JsNum.finite 0 ∧
    parsePositionSize JsVal.nullV = JsNum.finite 0 ∧
    parsePositionSize (JsVal.str []) = JsNum.finite 0 ∧
    parsePositionSize JsVal.nan = JsNum.finite 0 ∧
    (∀ q : ℚ, parsePositionSize (JsVal.num q) = JsNum.finite q) ∧
    (∀ b : Bool, parsePositionSize (JsVal.infinity b) = JsNum.inf b) ∧
    (∀ s : List Char, parseFloatM s = none →
      parsePositionSize (JsVal.str s) = JsNum.finite 0) ∧
    (∀ (s : List Char) (q : ℚ), parseFloatM s = some (JsNum.finite q) →
      parsePositionSize (JsVal.str s) = JsNum.finite q) ∧
    (∀ (s : List Char) (b : Bool), parseFloatM s = some (JsNum.inf b) →
      parsePositionSize (JsVal.str s) = JsNum.inf b) ∧
    (∀ v : JsVal, isValidPosition v = true ↔ parsePositionSize v ≠ JsNum.finite 0) := by
  refine ⟨rfl, rfl, rfl, rfl, fun q => rfl, fun b => rfl, ?_, ?_, ?_, ?_⟩
  · intro s h
    by_cases hs : s = []
    · subst hs; rfl
    · simp [parsePositionSize, hs, h]
  · intro s q h
    by_cases hs : s = []
    · subst hs
      rw [show parseFloatM [] = none from rfl] at h
      cases h
    · simp [parsePositionSize, hs, h]
  · intro s b h
    by_cases hs : s = []
    · subst hs
      rw [show parseFloatM [] = none from rfl] at h
      cases h
    · simp [parsePositionSize, hs, h]
  · intro v
    simp [isValidPosition]

/-- C10 witness: an unparseable string gives `0`, "2.5" parses to `5/2`,
"1e5" to `100000`, and "Infinity" to the positive infinity. -/
theorem parsePositionSize_total_spec_witness :
    parsePositionSize (JsVal.str ['a', 'b']) = JsNum.finite 0 ∧
    parsePositionSize (JsVal.str ['2', '.', '5']) = JsNum.finite (5/2) ∧
    parsePositionSize (JsVal.str ['1', 'e', '5']) = JsNum.finite 100000 ∧
    parsePositionSize (JsVal.str ['I', 'n', 'f', 'i', 'n', 'i', 't', 'y']) =
      JsNum.inf true := by
  have h := parsePositionSize_total_spec
  have hd2 : ('2' : Char).isDigit = true := by decide
  have hdd : ('.' : Char).isDigit = false := by decide
  have hd5 : ('5' : Char).isDigit = true := by decide
  have hd1 : ('1' : Char).isDigit = true := by decide
  have hde : ('e' : Char).isDigit = false := by decide
  have hs2 : isJsSpace '2' = false := by decide
  have hs1 : isJsSpace '1' = false := by decide
  have hm2 : (('2' : Char) == '-') = false := by decide
  have hp2 : (('2' : Char) == '+') = false := by decide
  have hm1 : (('1' : Char) == '-') = false := by decide
  have hp1 : (('1' : Char) == '+') = false := by decide
  have hm5 : (('5' : Char) == '-') = false := by decide
  have hp5 : (('5' : Char) == '+') = false := by decide
  have hq2 : (('2' : Char) == '.') = false := by decide
  have hqd : (('.' : Char) == '.') = true := by decide
  have hqe : (('e' : Char) == '.') = false := by decide
  have hee : (('e' : Char) == 'e') = true := by decide
  have h2n : ('2' : Char).toNat = 50 := by decide
  have h5n : ('5' : Char).toNat = 53 := by decide
  have h1n : ('1' : Char).toNat = 49 := by decide
  have hi25 : isPrefixOfC ['I', 'n', 'f', 'i', 'n', 'i', 't', 'y'] ['2', '.', '5'] = false := by
    decide
  have hi15 : isPrefixOfC ['I', 'n', 'f', 'i', 'n', 'i', 't', 'y'] ['1', 'e', '5'] = false := by
    decide
  have h25 : parseFloatM ['2', '.', '5'] = some (JsNum.finite (5/2)) := by
    norm_num [parseFloatM, takeDigits, digitsToNat, List.dropWhile, hd2, hdd, hd5,
      hs2, hm2, hp2, hq2, hqd, h2n, h5n, hi25]
  have h1e5 : parseFloatM ['1', 'e', '5'] = some (JsNum.finite 100000) := by
    norm_num [parseFloatM, takeDigits, digitsToNat, List.dropWhile, hd1, hde, hd5,
      hs1, hm1, hp1, hm5, hp5, hqe, hee, h1n, h5n, hi15]
  exact ⟨h.2.2.2.2.2.2.1 ['a', 'b'] (by decide),
    h.2.2.2.2.2.2.2.1 ['2', '.', '5'] (5/2) h25,
    h.2.2.2.2.2.2.2.1 ['1', 'e', '5'] 100000 h1e5,
    h.2.2.2.2.2.2.2.2.1 ['I', 'n', 'f', 'i', 'n', 'i', 't', 'y'] true (by decide)⟩

/-- C2: in the signed-request retry loop, timestamp and signature are computed
fresh inside every attempt: when the transport reports the clock-drift code
-1021 on attempt 1 and succeeds on attempt 2, the loop returns the success,
performs exactly one clock resynchronization between the attempts, and the
signer sees two timestamps, computed from the pre-sync and post-sync clock
states respectively — distinct whenever the elapsed time between the attempts
is not exactly cancelled by the offset adjustment. -/
theorem signed_retry_fresh_timestamps (env : SignedEnv) (st : ClockState)
    (retries : ℕ) (v : ℤ)
    (hr : 2 ≤ retries)
    (h1 : env.transport 1 = TResp.httpErr (-1021))
    (h2 : env.transport 2 = TResp.ok v)
    (hne : env.advance 1 + env.syncOffsetResult 1 ≠ st.timeOffset) :
    handleSignedRequest env retries st =
      (ReqResult.success v,
        [getServerTime st.localTime st.timeOffset,
         getServerTime (st.localTime + env.advance 1) (env.syncOffsetResult 1)],
        1) ∧
    getServerTime st.localTime st.timeOffset ≠
      getServerTime (st.localTime + env.advance 1) (env.syncOffsetResult 1) := by
  obtain ⟨r, rfl⟩ : ∃ r, retries = r + 2 := ⟨retries - 2, by omega⟩
  constructor
  · show signedLoop env (r + 2) (r + 2) 1 st = _
    rw [show r + 2 = (r + 1) + 1 from rfl]
    simp only [signedLoop, h1]
    rw [if_pos ⟨trivial, by omega⟩]
    simp only [signedLoop, h2]
  · simp only [getServerTime, ne_eq]
    intro hEq
    apply hne
    omega

/-- C2 witness: transport failing with -1021 on attempt 1 and succeeding with
payload 7 on attempt 2, 500 ms elapsing in between, initial offset 100. -/
theorem signed_retry_fresh_timestamps_witness :
    handleSignedRequest
        ⟨fun a => if a = 1 then TResp.httpErr (-1021) else TResp.ok 7,
         fun _ => 500, fun _ => 0⟩ 2 ⟨0, 100⟩ =
      (ReqResult.success 7, [100, 500], 1) ∧
    (100 : ℤ) ≠ 500 := by
  have h := signed_retry_fresh_timestamps
    ⟨fun a => if a = 1 then TResp.httpErr (-1021) else TResp.ok 7,
     fun _ => 500, fun _ => 0⟩ ⟨0, 100⟩ 2 7 (by decide) rfl rfl (by decide)
  simpa [getServerTime] using h

/-- C8 counterexample: with no in-flight `syncPromise` and a stale
`lastSyncTime`, two concurrent `ensureTimeSynced` callers interleaved at the
await point each start their own `syncServerTime` round trip: the schedule
ends with both tasks done and **two** network calls, not one. -/
theorem ensureTimeSynced_stale_resync_not_shared :
    (runSched ⟨⟨false, false, 0, RESYNC_INTERVAL_MS + 1, 0⟩, [TPC.entry, TPC.entry]⟩
        [SchedEv.task 0, SchedEv.task 1, SchedEv.task 0, SchedEv.task 1]).sys.networkCalls
      = 2 ∧
    (runSched ⟨⟨false, false, 0, RESYNC_INTERVAL_MS + 1, 0⟩, [TPC.entry, TPC.entry]⟩
        [SchedEv.task 0, SchedEv.task 1, SchedEv.task 0, SchedEv.task 1]).pcs
      = [TPC.done, TPC.done] := by
  decide

/-- C8 (amended): sharing holds only for the sync tracked in `syncPromise`
(the constructor-initiated one): two callers that arrive while it is in
flight both await it and observe its single result, starting no additional
network round trip; interval-elapsed resyncs are not tracked in `syncPromise`
and are not shared. -/
theorem ensureTimeSynced_inflight_shared (lastSync nowCur : ℤ) :
    runSched ⟨⟨true, false, lastSync, nowCur, 0⟩, [TPC.entry, TPC.entry]⟩
        [SchedEv.task 0, SchedEv.task 1, SchedEv.resolveShared,
         SchedEv.task 0, SchedEv.task 1] =
      ⟨⟨false, true, lastSync, nowCur, 0⟩, [TPC.done, TPC.done]⟩ := by
  rfl

/-- C4 counterexample: an entry inserted at time 0 is served by the `getOrder`
lookup path at time `CACHE_TTL + 1` (query failing, cache of size 1 well
under `MAX_CACHE_SIZE`): the lookup path never checks the entry's age. -/
theorem expired_entry_served_by_lookup :
    (getOrderModel [(1, ⟨"BTCUSDT", ⟨1, "BTCUSDT", 1, 0, "open", 0, 0, 1⟩, 0⟩)] 1
        ApiResult.err [] (CACHE_TTL + 1)).1 = ⟨1, "BTCUSDT", 1, 0, "open", 0, 0, 1⟩ ∧
    CACHE_TTL + 1 - 0 > CACHE_TTL ∧
    (1 : ℕ) ≤ MAX_CACHE_SIZE := by
  refine ⟨rfl, by decide, by decide⟩

/-- C4 (amended): expiry is enforced only by the sweep: after `cleanupCache`
runs (which `placeOrder` triggers), no surviving entry has age above
`CACHE_TTL`; between sweeps the `getOrder` lookup path may still serve an
expired entry, since it does not consult the timestamp. -/
theorem cleanupCache_removes_expired (nowT : ℤ) (m : CacheM)
    (p : ℕ × CacheEntryM) (hp : p ∈ cleanupCache nowT m) :
    nowT - p.2.timestamp ≤ CACHE_TTL := by
  have hmem : p ∈ m.filter (fun q => !(nowT - q.2.timestamp > CACHE_TTL : Bool)) := by
    simp only [cleanupCache, cleanupCacheWith] at hp
    split at hp
    · exact List.mem_of_mem_filter hp
    · exact hp
  have := (List.mem_filter.mp hmem).2
  simp only [Bool.not_eq_true', decide_eq_false_iff_not, not_lt] at this
  exact this

/-- C4 witness: a fresh entry surviving the sweep indeed has age within TTL. -/
theorem cleanupCache_removes_expired_witness :
    (5 : ℤ) - 0 ≤ CACHE_TTL :=
  cleanupCache_removes_expired 5
    [(1, ⟨"BTCUSDT", ⟨1, "BTCUSDT", 1, 0, "open", 0, 0, 1⟩, 0⟩)]
    (1, ⟨"BTCUSDT", ⟨1, "BTCUSDT", 1, 0, "open", 0, 0, 1⟩, 0⟩) (by decide)

theorem isPrefixOfC_append_self (p r : List Char) : isPrefixOfC p (p ++ r) = true := by
  induction p with
  | nil => rfl
  | cons a as ih => simp [isPrefixOfC, ih]

theorem isPrefixOfC_self (p : List Char) : isPrefixOfC p p = true := by
  have h := isPrefixOfC_append_self p []
  simpa using h

theorem isPrefixOfC_eq_true_iff (p : List Char) :
    ∀ s : List Char, isPrefixOfC p s = true ↔ ∃ r, s = p ++ r := by
  induction p with
  | nil => intro s; simp [isPrefixOfC]
  | cons a as ih =>
    intro s
    cases s with
    | nil => simp [isPrefixOfC]
    | cons b bs =>
      simp only [isPrefixOfC, Bool.and_eq_true, beq_iff_eq, ih bs]
      constructor
      · rintro ⟨rfl, r, rfl⟩
        exact ⟨r, rfl⟩
      · rintro ⟨r, hr⟩
        rw [List.cons_append] at hr
        cases hr
        exact ⟨rfl, r, rfl⟩

theorem replaceFirstC_of_head_not_mem (s : List Char) (c : Char) (tl : List Char)
    (h : c ∉ s) : replaceFirstC s (c :: tl) = s := by
  induction s with
  | nil => rfl
  | cons d rest ih =>
    have hcd : (c == d) = false := by
      simp only [beq_eq_false_iff_ne, ne_eq]
      intro hEq
      exact h (hEq ▸ List.mem_cons_self d rest)
    simp only [replaceFirstC, isPrefixOfC, hcd, Bool.false_and, Bool.false_eq_true,
      if_false]
    rw [ih (fun hc => h (List.mem_cons_of_mem d hc))]

theorem replaceFirstC_append_match (pre : List Char) (c : Char) (tl rest : List Char)
    (hpre : c ∉ pre) (hmatch : isPrefixOfC (c :: tl) (c :: rest) = true) :
    replaceFirstC (pre ++ c :: rest) (c :: tl) = pre ++ (c :: rest).drop (c :: tl).length := by
  induction pre with
  | nil => simp [replaceFirstC, hmatch]
  | cons d pre' ih =>
    have hcd : (c == d) = false := by
      simp only [beq_eq_false_iff_ne, ne_eq]
      intro hEq
      exact hpre (hEq ▸ List.mem_cons_self d pre')
    simp only [List.cons_append, replaceFirstC, isPrefixOfC, hcd, Bool.false_and,
      Bool.false_eq_true, if_false, List.append_eq]
    rw [ih (fun hc => hpre (List.mem_cons_of_mem d hc))]

theorem occursC_append_self (pre p : List Char) : occursC p (pre ++ p) = true := by
  induction pre with
  | nil =>
    cases p with
    | nil => rfl
    | cons c p' => simp [occursC, isPrefixOfC_self]
  | cons d pre' ih => simp [occursC, ih]

theorem endsWithC_append (s p : List Char) : endsWithC (s ++ p) p = true := by
  unfold endsWithC
  rw [List.reverse_append]
  exact isPrefixOfC_append_self _ _

theorem endsWithC_eq_false_of_not_occurs (s p : List Char)
    (h : occursC p s = false) : endsWithC s p = false := by
  cases he : endsWithC s p
  · rfl
  · exfalso
    unfold endsWithC at he
    obtain ⟨r, hr⟩ := (isPrefixOfC_eq_true_iff _ _).mp he
    have hs : s = r.reverse ++ p := by
      have := congrArg List.reverse hr
      simpa [List.reverse_append] using this
    rw [hs, occursC_append_self] at h
    cases h

theorem isPrefixOfC_append_of_le (p : List Char) :
    ∀ (l r : List Char), p.length ≤ l.length →
      isPrefixOfC p (l ++ r) = isPrefixOfC p l := by
  induction p with
  | nil => intro l r _; rfl
  | cons a as ih =>
    intro l r hlen
    cases l with
    | nil => simp at hlen
    | cons b bs =>
      simp only [List.cons_append, isPrefixOfC, List.append_eq]
      rw [ih bs r (by simpa using hlen)]

theorem not_prefix_usdt_boundary (c : Char) (b' : List Char)
    (hb1 : isPrefixOfC USDTl (c :: b') = false) :
    isPrefixOfC USDTl (c :: (b' ++ USDTl)) = false := by
  match b' with
  | [] =>
    have h1 : (('S' : Char) == 'U') = false := by decide
    simp [USDTl, isPrefixOfC, h1]
  | [d] =>
    have h1 : (('D' : Char) == 'U') = false := by decide
    simp [USDTl, isPrefixOfC, h1]
  | [d, e] =>
    have h1 : (('T' : Char) == 'U') = false := by decide
    simp [USDTl, isPrefixOfC, h1]
  | d :: e :: f :: rest =>
    have hlen : USDTl.length ≤ (c :: d :: e :: f :: rest).length := by simp [USDTl]
    show isPrefixOfC USDTl ((c :: d :: e :: f :: rest) ++ USDTl) = false
    rw [isPrefixOfC_append_of_le USDTl _ USDTl hlen]
    exact hb1

theorem replaceFirstC_usdt_append (b : List Char) (hb : occursC USDTl b = false) :
    replaceFirstC (b ++ USDTl) USDTl = b := by
  induction b with
  | nil => decide
  | cons c b' ih =>
    simp only [occursC, Bool.or_eq_false_iff] at hb
    obtain ⟨hb1, hb2⟩ := hb
    have hnp : isPrefixOfC USDTl (c :: (b' ++ USDTl)) = false :=
      not_prefix_usdt_boundary c b' hb1
    simp only [List.cons_append, List.append_eq, replaceFirstC]
    rw [if_neg (by simp [hnp]), ih hb2]

/-- Normalization of each accepted input format built over a base `b`
satisfying `GoodBase` computes to the canonical `b ++ "USDT"`. -/
theorem normalizeContract_forms (b : List Char) (hb : GoodBase b) :
    normalizeContract b = b ++ USDTl ∧
    normalizeContract (b ++ '/' :: USDTl) = b ++ USDTl ∧
    normalizeContract ((b ++ '/' :: USDTl) ++ ':' :: USDTl) = b ++ USDTl ∧
    normalizeContract (b ++ '_' :: USDTl) = b ++ USDTl ∧
    normalizeContract (b ++ USDTl) = b ++ USDTl := by
  obtain ⟨hu, hsl, hco, hocc⟩ := hb
  have m1 : ('_' : Char) ∉ b ++ USDTl := by
    intro h
    rcases List.mem_append.mp h with h | h
    · exact hu h
    · revert h; decide
  have m2 : ('/' : Char) ∉ b ++ USDTl := by
    intro h
    rcases List.mem_append.mp h with h | h
    · exact hsl h
    · revert h; decide
  have m3 : (':' : Char) ∉ b ++ USDTl := by
    intro h
    rcases List.mem_append.mp h with h | h
    · exact hco h
    · revert h; decide
  have hend : endsWithC (b ++ USDTl) USDTl = true := endsWithC_append b USDTl
  have e2id : replaceFirstC (b ++ USDTl) ['/'] = b ++ USDTl :=
    replaceFirstC_of_head_not_mem _ '/' [] m2
  have e3id : replaceFirstC (b ++ USDTl) (':' :: USDTl) = b ++ USDTl :=
    replaceFirstC_of_head_not_mem _ ':' USDTl m3
  refine ⟨?_, ?_, ?_, ?_, ?_⟩
  · -- bare base
    have e1 : replaceFirstC b ['_'] = b := replaceFirstC_of_head_not_mem b '_' [] hu
    have e2 : replaceFirstC b ['/'] = b := replaceFirstC_of_head_not_mem b '/' [] hsl
    have e3 : replaceFirstC b (':' :: USDTl) = b :=
      replaceFirstC_of_head_not_mem b ':' USDTl hco
    have hend0 : endsWithC b USDTl = false := endsWithC_eq_false_of_not_occurs b USDTl hocc
    simp [normalizeContract, e1, e2, e3, hend0, hocc]
  · -- slash pair
    have msl : ('_' : Char) ∉ b ++ '/' :: USDTl := by
      intro h
      rcases List.mem_append.mp h with h | h
      · exact hu h
      · revert h; decide
    have e1 : replaceFirstC (b ++ '/' :: USDTl) ['_'] = b ++ '/' :: USDTl :=
      replaceFirstC_of_head_not_mem _ '_' [] msl
    have e2 : replaceFirstC (b ++ '/' :: USDTl) ['/'] = b ++ USDTl := by
      have h := replaceFirstC_append_match b '/' [] USDTl hsl (by decide)
      simpa using h
    simp [normalizeContract, e1, e2, e3id, hend]
  · -- settlement-suffixed pair
    have msh : ('_' : Char) ∉ (b ++ '/' :: USDTl) ++ ':' :: USDTl := by
      intro h
      rcases List.mem_append.mp h with h | h
      · rcases List.mem_append.mp h with h | h
        · exact hu h
        · revert h; decide
      · revert h; decide
    have hshape : (b ++ '/' :: USDTl) ++ ':' :: USDTl =
        b ++ '/' :: (USDTl ++ ':' :: USDTl) := by
      rw [List.append_assoc, List.cons_append]
    rw [hshape]
    have msh' : ('_' : Char) ∉ b ++ '/' :: (USDTl ++ ':' :: USDTl) := hshape ▸ msh
    have e1 : replaceFirstC (b ++ '/' :: (USDTl ++ ':' :: USDTl)) ['_'] =
        b ++ '/' :: (USDTl ++ ':' :: USDTl) :=
      replaceFirstC_of_head_not_mem _ '_' [] msh'
    have e2 : replaceFirstC (b ++ '/' :: (USDTl ++ ':' :: USDTl)) ['/'] =
        b ++ (USDTl ++ ':' :: USDTl) := by
      have h := replaceFirstC_append_match b '/' [] (USDTl ++ ':' :: USDTl) hsl
        (by simp [isPrefixOfC])
      simpa using h
    have e3 : replaceFirstC (b ++ (USDTl ++ ':' :: USDTl)) (':' :: USDTl) =
        b ++ USDTl := by
      rw [← List.append_assoc]
      have h := replaceFirstC_append_match (b ++ USDTl) ':' USDTl USDTl m3 (by decide)
      simpa using h
    simp [normalizeContract, e1, e2, e3, hend]
  · -- underscore pair
    have e1 : replaceFirstC (b ++ '_' :: USDTl) ['_'] = b ++ USDTl := by
      have h := replaceFirstC_append_match b '_' [] USDTl hu (by decide)
      simpa using h
    simp [normalizeContract, e1, e2id, e3id, hend]
  · -- canonical
    have e1 : replaceFirstC (b ++ USDTl) ['_'] = b ++ USDTl :=
      replaceFirstC_of_head_not_mem _ '_' [] m1
    simp [normalizeContract, e1, e2id, e3id, hend]

/-- C6: symbol normalization is idempotent on every accepted format (bare
base, slash pair, settlement-suffixed pair, underscore pair, canonical), and
"BTC", "BTC/USDT" and "BTC_USDT" normalize to the same canonical symbol. -/
theorem normalizeContract_idempotent (b : List Char) (hb : GoodBase b) :
    (∀ x ∈ [b, b ++ '/' :: USDTl, (b ++ '/' :: USDTl) ++ ':' :: USDTl,
        b ++ '_' :: USDTl, b ++ USDTl],
      normalizeContract (normalizeContract x) = normalizeContract x) ∧
    normalizeContract ['B', 'T', 'C'] =
      normalizeContract ['B', 'T', 'C', '/', 'U', 'S', 'D', 'T'] ∧
    normalizeContract ['B', 'T', 'C', '/', 'U', 'S', 'D', 'T'] =
      normalizeContract ['B', 'T', 'C', '_', 'U', 'S', 'D', 'T'] := by
  obtain ⟨h1, h2, h3, h4, h5⟩ := normalizeContract_forms b hb
  refine ⟨?_, by decide, by decide⟩
  intro x hx
  simp only [List.mem_cons, List.not_mem_nil, or_false] at hx
  rcases hx with rfl | rfl | rfl | rfl | rfl
  · rw [h1, h5]
  · rw [h2, h5]
  · rw [h3, h5]
  · rw [h4, h5]
  · rw [h5, h5]

/-- C6 witness: the idempotency statement at base "BTC". -/
theorem normalizeContract_idempotent_witness :
    (∀ x ∈ [['B', 'T', 'C'], ['B', 'T', 'C'] ++ '/' :: USDTl,
        (['B', 'T', 'C'] ++ '/' :: USDTl) ++ ':' :: USDTl,
        ['B', 'T', 'C'] ++ '_' :: USDTl, ['B', 'T', 'C'] ++ USDTl],
      normalizeContract (normalizeContract x) = normalizeContract x) ∧
    normalizeContract ['B', 'T', 'C'] =
      normalizeContract ['B', 'T', 'C', '/', 'U', 'S', 'D', 'T'] ∧
    normalizeContract ['B', 'T', 'C', '/', 'U', 'S', 'D', 'T'] =
      normalizeContract ['B', 'T', 'C', '_', 'U', 'S', 'D', 'T'] :=
  normalizeContract_idempotent ['B', 'T', 'C'] (by unfold GoodBase; decide)

/-- C9: for every accepted USDT-quoted input format, extracting the base with
`extractSymbol` and re-normalizing gives the same canonical symbol as
normalizing the original input. -/
theorem extractSymbol_roundtrip (b : List Char) (hb : GoodBase b) :
    ∀ x ∈ [b, b ++ '/' :: USDTl, (b ++ '/' :: USDTl) ++ ':' :: USDTl,
        b ++ '_' :: USDTl, b ++ USDTl],
      normalizeContract (extractSymbol x) = normalizeContract x := by
  obtain ⟨h1, h2, h3, h4, h5⟩ := normalizeContract_forms b hb
  have hext : replaceFirstC (b ++ USDTl) USDTl = b :=
    replaceFirstC_usdt_append b hb.2.2.2
  intro x hx
  simp only [List.mem_cons, List.not_mem_nil, or_false] at hx
  rcases hx with rfl | rfl | rfl | rfl | rfl
  · rw [extractSymbol, h1, hext]; exact h1
  · rw [extractSymbol, h2, hext]; exact h1
  · rw [extractSymbol, h3, hext]; exact h1
  · rw [extractSymbol, h4, hext]; exact h1
  · rw [extractSymbol, h5, hext]; exact h1

/-- C9 witness: the round-trip statement at base "BTC", at each of the five
accepted formats. -/
theorem extractSymbol_roundtrip_witness :
    normalizeContract (extractSymbol ['B', 'T', 'C']) =
      normalizeContract ['B', 'T', 'C'] ∧
    normalizeContract (extractSymbol (['B', 'T', 'C'] ++ '/' :: USDTl)) =
      normalizeContract (['B', 'T', 'C'] ++ '/' :: USDTl) ∧
    normalizeContract (extractSymbol ((['B', 'T', 'C'] ++ '/' :: USDTl) ++ ':' :: USDTl)) =
      normalizeContract ((['B', 'T', 'C'] ++ '/' :: USDTl) ++ ':' :: USDTl) ∧
    normalizeContract (extractSymbol (['B', 'T', 'C'] ++ '_' :: USDTl)) =
      normalizeContract (['B', 'T', 'C'] ++ '_' :: USDTl) ∧
    normalizeContract (extractSymbol (['B', 'T', 'C'] ++ USDTl)) =
      normalizeContract (['B', 'T', 'C'] ++ USDTl) := by
  have h := extractSymbol_roundtrip ['B', 'T', 'C'] (by unfold GoodBase; decide)
  exact ⟨h _ (by simp), h _ (by simp), h _ (by simp), h _ (by simp), h _ (by simp)⟩

/-- A permutation of a strictly key-increasing list that is sorted by the
key is the list itself. -/
theorem eq_of_perm_sorted_strict {α : Type} (key : α → ℤ) :
    ∀ {l l' : List α}, l'.Perm l → l.Pairwise (fun a b => key a < key b) →
      l'.Pairwise (fun a b => key a ≤ key b) → l' = l := by
  intro l
  induction l with
  | nil =>
    intro l' hp _ _
    exact hp.eq_nil
  | cons a t ih =>
    intro l' hp hm hs
    cases l' with
    | nil =>
      have := hp.length_eq
      simp at this
    | cons bhd tl =>
      have hba : bhd = a := by
        by_contra hne
        have hbmem : bhd ∈ a :: t := hp.subset (List.mem_cons_self bhd tl)
        have hamem : a ∈ bhd :: tl := hp.symm.subset (List.mem_cons_self a t)
        rcases List.mem_cons.mp hbmem with h | hbt
        · exact hne h
        rcases List.mem_cons.mp hamem with h | hat
        · exact hne h.symm
        have hlt : key a < key bhd := ((List.pairwise_cons.mp hm).1) bhd hbt
        have hle : key bhd ≤ key a := ((List.pairwise_cons.mp hs).1) a hat
        omega
      subst hba
      rw [ih hp.cons_inv (List.pairwise_cons.mp hm).2 (List.pairwise_cons.mp hs).2]

/-- The stable sort of `cleanupCache` leaves a strictly timestamp-increasing
list unchanged. -/
theorem mergeSort_eq_self_strict (l : List (ℕ × CacheEntryM))
    (hm : l.Pairwise (fun a b => a.2.timestamp < b.2.timestamp)) :
    l.mergeSort (fun a b => a.2.timestamp ≤ b.2.timestamp) = l := by
  apply eq_of_perm_sorted_strict (fun p : ℕ × CacheEntryM => p.2.timestamp)
  · exact List.mergeSort_perm l _
  · exact hm
  · have h : (l.mergeSort (fun a b => decide (a.2.timestamp ≤ b.2.timestamp))).Pairwise
        (fun a b => (decide (a.2.timestamp ≤ b.2.timestamp) : Bool) = true) := by
      apply List.sorted_mergeSort
      · intro a b c h1 h2
        simp only [decide_eq_true_eq] at h1 h2 ⊢
        omega
      · intro a b
        simp only [Bool.or_eq_true, decide_eq_true_eq]
        omega
    exact h.imp (fun hab => by simpa using hab)

/-- Deleting by key exactly the entries of `m.take k` from `m` leaves
`m.drop k`, when keys are distinct. -/
theorem filter_not_in_take (m : CacheM) (k : ℕ)
    (hkeys : (m.map Prod.fst).Nodup) :
    m.filter (fun p => !(m.take k).any (fun q => q.1 == p.1)) = m.drop k := by
  set t := m.take k with ht
  set d := m.drop k with hd
  have hm : m = t ++ d := (List.take_append_drop k m).symm
  have hnodup : ((t ++ d).map Prod.fst).Nodup := hm ▸ hkeys
  rw [List.map_append] at hnodup
  have hdisj := (List.nodup_append.mp hnodup).2.2
  rw [hm, List.filter_append]
  have h1 : t.filter (fun p => !t.any (fun q => q.1 == p.1)) = [] := by
    rw [List.filter_eq_nil_iff]
    intro a ha
    rw [Bool.not_eq_true', List.any_eq_false]
    intro hAll
    exact (hAll a ha) (by simp)
  have h2 : d.filter (fun p => !t.any (fun q => q.1 == p.1)) = d := by
    rw [List.filter_eq_self]
    intro a ha
    rw [Bool.not_eq_true', List.any_eq_false]
    intro q hq h
    have hqa : q.1 = a.1 := by simpa using h
    exact hdisj (List.mem_map_of_mem Prod.fst hq) (hqa ▸ List.mem_map_of_mem Prod.fst ha)
  rw [h1, h2, List.nil_append]

/-- `cleanupCacheWith` on a fresh, strictly timestamp-increasing,
distinct-key cache of `maxSize + k` entries drops exactly the `k` oldest. -/
theorem cleanup_full_fresh (maxSize k : ℕ) (ttl nowT : ℤ) (m : CacheM)
    (hlen : m.length = maxSize + k)
    (hfresh : ∀ p ∈ m, nowT - p.2.timestamp ≤ ttl)
    (hmono : m.Pairwise (fun a b => a.2.timestamp < b.2.timestamp))
    (hkeys : (m.map Prod.fst).Nodup) :
    cleanupCacheWith maxSize ttl nowT m = m.drop k := by
  have hfilter : m.filter (fun p => !(nowT - p.2.timestamp > ttl : Bool)) = m := by
    rw [List.filter_eq_self]
    intro a ha
    simp only [Bool.not_eq_true', decide_eq_false_iff_not, not_lt]
    exact hfresh a ha
  simp only [cleanupCacheWith, hfilter]
  by_cases hk : k = 0
  · subst hk
    rw [if_neg (by omega), List.drop_zero]
  · rw [if_pos (by omega), mergeSort_eq_self_strict m hmono, hlen,
      Nat.add_sub_cancel_left]
    exact filter_not_in_take m k hkeys

/-- C3: sweeping a cache of `MAX_CACHE_SIZE + 5` fresh entries (inserted with
strictly increasing timestamps and distinct order ids) leaves exactly
`MAX_CACHE_SIZE` entries, evicting precisely the 5 oldest by timestamp (the
first 5 in insertion order). -/
theorem cache_sweep_capacity (nowT : ℤ) (m : CacheM)
    (hlen : m.length = MAX_CACHE_SIZE + 5)
    (hfresh : ∀ p ∈ m, nowT - p.2.timestamp ≤ CACHE_TTL)
    (hmono : m.Pairwise (fun a b => a.2.timestamp < b.2.timestamp))
    (hkeys : (m.map Prod.fst).Nodup) :
    cleanupCache nowT m = m.drop 5 ∧
    (cleanupCache nowT m).length = MAX_CACHE_SIZE := by
  have h := cleanup_full_fresh MAX_CACHE_SIZE 5 CACHE_TTL nowT m hlen hfresh hmono hkeys
  refine ⟨h, ?_⟩
  rw [cleanupCache, h, List.length_drop, hlen]
  omega

/-- C3 witness: the concrete cache of 1005 entries with timestamps 0..1004,
swept at time 1004. -/
theorem cache_sweep_capacity_witness :
    cleanupCache 1004 c3Cache = c3Cache.drop 5 ∧
    (cleanupCache 1004 c3Cache).length = MAX_CACHE_SIZE := by
  apply cache_sweep_capacity
  · simp only [c3Cache, List.length_map, List.length_range]
  · intro p hp
    simp only [c3Cache, List.mem_map, List.mem_range] at hp
    obtain ⟨i, hi, rfl⟩ := hp
    simp only [c3CacheEntry, CACHE_TTL, MAX_CACHE_SIZE] at *
    omega
  · simp only [c3Cache, List.pairwise_map]
    exact (List.pairwise_lt_range _).imp
      (fun h => by simpa [c3CacheEntry] using Int.ofNat_lt.mpr h)
  · simp only [c3Cache, List.map_map]
    exact (List.nodup_range _).map (fun a b h => h)

end AiAutoTrading
